import Mathlib

/-!
Shallow embedding of the exposure-notification / risk-propagation core of the
covid_p2p_simulation repository, and theorems checking the specification's
claims against it.

Embedded source:
* `risk_prediction.py` — identity codec (`dummy_human.message_risk`,
  `dummy_human.update_uid`), contact clustering (`add_message_to_cluster`)
  and risk fusion (`update_risk_encounter`);
* `src/covid19sim/base.py` — the global mailbox (`cleanup_global_mailbox`),
  message registration (`register_new_messages`) and the GAEN budget
  controller (`_check_should_send_message_gaen`).

Floats are modelled as rationals, datetimes as integer second counts (so a
timedelta's `.days` attribute is floor division by 86400), bitarrays as
`List Bool` (most significant bit first), and Python dicts either as
insertion-ordered association lists (where iteration order matters) or as
total functions with the dict's default standing for an absent key.
-/

namespace CovidSim

/-! ## Identity codec (risk_prediction.py, dummy_human) -/

/-- Value of a big-endian bit string as a natural number, i.e. Python
`int(bstr, 2)`. -/
def bitsToNat : List Bool → ℕ
  | [] => 0
  | b :: bs => (if b then 1 else 0) * 2 ^ bs.length + bitsToNat bs

/-- Modelled from the spec: `binary_to_float(bstr, 0, n)` lives in `utils`,
which is not under `src/`; per the spec it is the inverse linear quantization
with step `1 / 2 ^ 4`: the integer value of the bit string divided by `2 ^ 4`.
This is the `decode_risk` operation of the spec. -/
def binary_to_float (bs : List Bool) : ℚ := (bitsToNat bs : ℚ) / 16

/-- Minimal big-endian binary representation of a natural number (Python
`'\x7b:b\x7d'.format`); the representation of 0 is empty here, and the caller
pads to the minimum field width. -/
def natToBits : ℕ → List Bool
  | 0 => []
  | n + 1 => natToBits ((n + 1) / 2) ++ [decide ((n + 1) % 2 = 1)]
decreasing_by exact Nat.div_lt_self (Nat.succ_pos n) one_lt_two

/-- Modelled from the spec: `float_to_binary(x, 0, 4)` lives in `utils`, which
is not under `src/`; per the spec it linearly quantizes `x` in steps of `1/16`
to the nearest level (modelled as `⌊x * 16 + 1/2⌋`; every claim is evaluated
only at exact multiples of the step, where all rounding rules agree) and
renders the level in binary with a minimum width of 4 digits. -/
def float_to_binary (x : ℚ) : List Bool :=
  let k := (⌊x * 16 + 1 / 2⌋).toNat
  let bs := natToBits k
  List.replicate (4 - bs.length) false ++ bs

/-- `dummy_human.message_risk` (risk_prediction.py): quantizes the risk for
use in a message; a risk of exactly 1.0 maps to the all-ones 4-bit code. -/
def message_risk (risk : ℚ) : List Bool :=
  if risk = 1 then [true, true, true, true]
  else float_to_binary risk

/-- `dummy_human.update_uid` (risk_prediction.py): pops the last bit of the
current uid and appends one random bit; when no uid exists yet (the
`AttributeError` path), draws a fresh random 4-bit uid.  The random draws are
passed explicitly: `freshBit` for the pop/extend path and `freshId` (four
random bits) for the fresh-draw path. -/
def update_uid (prior : Option (List Bool)) (freshBit : Bool)
    (freshId : List Bool) : List Bool :=
  match prior with
  | some u => u.dropLast ++ [freshBit]
  | none => freshId

/-- The uid after `n` successive `update_uid` calls starting from a person with
no uid, call `i` drawing random bit `bits i` (the fresh 4-bit draw of the very
first call is `freshId`). -/
def iterate_uid (bits : ℕ → Bool) (freshId : List Bool) : ℕ → Option (List Bool)
  | 0 => none
  | n + 1 => some (update_uid (iterate_uid bits freshId n) (bits n) freshId)

/-! ## Contact cluster engine (risk_prediction.py) -/

/-- The value stored in `human.M` for one encoded message: the cluster
assignment dict `{'assignment': ..., 'previous_risk': ...,
'carry_over_transmission_proba': ...}`. -/
structure ClusterEntry where
  assignment : ℕ
  previous_risk : ℚ
  carry_over_transmission_proba : ℚ
deriving DecidableEq

/-- An encounter message, `namedtuple('message', 'uid risk time unobs_id')`.
The datetime is represented by its `.day` attribute, the only part of it the
clustering code reads. -/
structure EncMessage where
  uid : List Bool
  risk : List Bool
  day : ℤ
  unobs_id : ℕ
deriving DecidableEq

/-- Modelled from the spec: `human.M` is a Python dict keyed by
`_encode_message(m)` with `_decode_message` its inverse; both live in `utils`,
which is not under `src/`.  The encoding is modelled as the identity, so the
insertion-ordered table is keyed by the message itself. -/
abbrev ClusterTable := List (EncMessage × ClusterEntry)

/-- Python `human.M[k]`, as an option. -/
def lookupM (M : ClusterTable) (k : EncMessage) : Option ClusterEntry :=
  (M.find? (fun p => decide (p.1 = k))).map (fun p => p.2)

/-- Python `human.M[k] = v`: overwrite in place when the key exists, append
otherwise (dicts are insertion-ordered). -/
def setItem (M : ClusterTable) (k : EncMessage) (v : ClusterEntry) : ClusterTable :=
  if M.any (fun p => decide (p.1 = k)) then
    M.map (fun p => if p.1 = k then (k, v) else p)
  else M ++ [(k, v)]

/-- The elif score ladder of `add_message_to_cluster`: the score the incoming
message `mi` gives to the stored message `m`, if any. -/
def scoreMsg (mi m : EncMessage) : Option ℕ :=
  if mi.uid = m.uid ∧ mi.day = m.day then some 3
  else if mi.uid.take 3 = m.uid.take 3 ∧ mi.day - 1 = m.day then some 2
  else if mi.uid.take 2 = m.uid.take 2 ∧ mi.day - 2 = m.day then some 1
  else if mi.uid.take 1 = m.uid.take 1 ∧ mi.day - 2 = m.day then some 0
  else none

/-- The `scores` dict of `add_message_to_cluster`, in table iteration
(= insertion) order: each stored message with the score it received. -/
def scoresList (M : ClusterTable) (mi : EncMessage) :
    List ((EncMessage × ClusterEntry) × ℕ) :=
  M.filterMap (fun p => (scoreMsg mi p.1).map (fun s => (p, s)))

/-- Python `max(scores.items(), key=operator.itemgetter(1))`: the first item
carrying the maximal score, in iteration order. -/
def pickMax : List ((EncMessage × ClusterEntry) × ℕ) →
    Option ((EncMessage × ClusterEntry) × ℕ)
  | [] => none
  | x :: xs => some (xs.foldl (fun best y => if best.2 < y.2 then y else best) x)

/-- Python `max([v['assignment'] for k, v in human.M.items()])` (the table is
nonempty whenever this is evaluated). -/
def maxAssignment (M : ClusterTable) : ℕ :=
  (M.map (fun p => p.2.assignment)).foldl max 0

/-- `add_message_to_cluster(human, m_i)` (risk_prediction.py): score the new
message against every stored one; join the group of the highest-scoring match,
else start group 0 on an empty table, else start group `max + 1`.  `P` is the
configured `RISK_TRANSMISSION_PROBA` (the config module is not under `src/`,
so it stays a parameter). -/
def add_message_to_cluster (P : ℚ) (M : ClusterTable) (mi : EncMessage) :
    ClusterTable :=
  let m_risk := binary_to_float mi.risk
  match pickMax (scoresList M mi) with
  | some (p, _) => setItem M mi ⟨p.2.assignment, m_risk, P⟩
  | none =>
    if M = [] then setItem M mi ⟨0, m_risk, P⟩
    else setItem M mi ⟨maxAssignment M + 1, m_risk, P⟩

/-- The keys of a cluster table, in insertion order. -/
def keysOf (M : ClusterTable) : List EncMessage := M.map (fun p => p.1)

/-- Whether a call to `add_message_to_cluster` creates a new group (both
branches with an empty `scores` dict do). -/
def createsGroup (M : ClusterTable) (mi : EncMessage) : Bool :=
  decide (scoresList M mi = [])

/-- Feed a list of encounter messages through `add_message_to_cluster`. -/
def processMessages (P : ℚ) (M : ClusterTable) (msgs : List EncMessage) :
    ClusterTable :=
  msgs.foldl (add_message_to_cluster P) M

/-- How many new groups a run of `add_message_to_cluster` calls creates. -/
def groupsCreated (P : ℚ) (M : ClusterTable) : List EncMessage → ℕ
  | [] => 0
  | mi :: ms =>
    (if createsGroup M mi then 1 else 0)
      + groupsCreated P (add_message_to_cluster P M mi) ms

/-! ## Risk fusion engine (risk_prediction.py, update_risk_encounter) -/

/-- The three values of the `RISK_MODEL` switch. -/
inductive RiskModel
  | yoshua
  | lenka
  | eilif
deriving DecidableEq

/-- The clipping step at the end of `update_risk_encounter`: `CLIP_RISK` (from
the config module, not under `src/`) stays a parameter. -/
def clipRisk (clip : Bool) (r : ℚ) : ℚ := if clip then min r 1 else r

/-- `update_risk_encounter(human, message, RISK_MODEL)` (risk_prediction.py):
returns the updated cluster table and risk.  In the eilif branch, when the
message's key is not in `human.M`, the source computes the update and then
raises `KeyError` on `human.M[msg_enc]['previous_risk'] = m_risk`; that path is
modelled as `Except.error`. -/
def update_risk_encounter (P : ℚ) (clip : Bool) (M : ClusterTable) (risk : ℚ)
    (message : EncMessage) (model : RiskModel) :
    Except Unit (ClusterTable × ℚ) :=
  let m_risk := binary_to_float message.risk
  match model with
  | .yoshua =>
    let update := if risk < m_risk then (m_risk - m_risk * risk) * P else 0
    Except.ok (M, clipRisk clip (risk + update))
  | .lenka =>
    Except.ok (M, clipRisk clip (risk + m_risk * P))
  | .eilif =>
    let update :=
      match lookupM M message with
      | none => m_risk * P
      | some e =>
        (m_risk - e.previous_risk) * P
          + e.previous_risk * e.carry_over_transmission_proba
    match lookupM M message with
    | none => Except.error ()
    | some e =>
      Except.ok
        (setItem M message
          { e with
            previous_risk := m_risk,
            carry_over_transmission_proba := P * (1 - update) },
          clipRisk clip (risk + update))

/-- The risk value an `update_risk_encounter` call produced (0 on the failing
eilif path, which the yoshua model never takes). -/
def riskOf (r : Except Unit (ClusterTable × ℚ)) : ℚ :=
  match r with
  | .ok (_, v) => v
  | .error _ => 0

/-- The sequence of risk values (initial one included) along a run of
`update_risk_encounter` under the yoshua model. -/
def yoshuaSeq (P : ℚ) (clip : Bool) (M : ClusterTable) (r0 : ℚ) :
    List EncMessage → List ℚ
  | [] => [r0]
  | m :: ms =>
    r0 :: yoshuaSeq P clip M
      (riskOf (update_risk_encounter P clip M r0 m .yoshua)) ms

/-! ## Global mailbox and GAEN budget controller (src/covid19sim/base.py) -/

/-- Modelled from the spec: `covid19sim.frozen.message_utils.UpdateMessage` is
not under `src/`; only the fields `base.py` reads are modelled — the mailbox
key `uid`, the encounter timestamp (in seconds), and the sender / receiver
real identities (`_sender_uid` / `_receiver_uid`). -/
structure UpdateMessage where
  uid : ℕ
  encounter_time : ℤ
  sender : ℕ
  receiver : ℕ
deriving DecidableEq

/-- The configuration entries `base.py` reads through `self.conf.get`; the
yaml configuration is not under `src/`, so the values are parameters. -/
structure Conf where
  use_gaen : Bool
  message_budget_gaen : ℚ
  intervention_day : ℤ
  burn_in_days : ℤ
  days_between_messages : ℤ
  updates_per_day : ℚ
  n_people : ℕ
  tracing_n_days_history : ℤ

/-- The mutable City state the registration path touches: the run-wide GAEN
histogram and its running sum, the per-day sent-message counters
(`sent_messages_by_day`, default 0 for an absent day), each human's
`contact_book.latest_update_time`, and the global mailbox
(`global_mailbox[user][mailbox_key]`, default `[]` for absent keys). -/
structure CityState where
  risk_change_histogram : List (ℤ × ℕ)
  risk_change_histogram_sum : ℕ
  sent_messages_by_day : ℤ → ℕ
  latest_update_time : ℕ → ℤ
  global_mailbox : ℕ → ℕ → List UpdateMessage

/-- `self.risk_change_histogram[score] += 1` on a `Counter`. -/
def histIncr : List (ℤ × ℕ) → ℤ → List (ℤ × ℕ)
  | [], s => [(s, 1)]
  | (k, v) :: rest, s =>
    if k = s then (k, v + 1) :: rest else (k, v) :: histIncr rest s

/-- The count a histogram holds for a score (0 when the score is absent). -/
def histCount (h : List (ℤ × ℕ)) (s : ℤ) : ℕ :=
  ((h.find? (fun p => decide (p.1 = s))).map (fun p => p.2)).getD 0

/-- Insert one entry into a list sorted by key in decreasing order. -/
def insertDescend (x : ℤ × ℚ) : List (ℤ × ℚ) → List (ℤ × ℚ)
  | [] => [x]
  | y :: ys => if y.1 ≤ x.1 then x :: y :: ys else y :: insertDescend x ys

/-- Sort a list of (score, fraction) pairs by score in decreasing order:
Python `sorted(..., reverse=True)` over dict items with pairwise-distinct
keys. -/
def sortDescend : List (ℤ × ℚ) → List (ℤ × ℚ)
  | [] => []
  | x :: xs => insertDescend x (sortDescend xs)

/-- The `scaled_risks` list of `_check_should_send_message_gaen`: every
histogram bucket scaled to a fraction of the running sum, sorted by
risk-change score in decreasing order. -/
def scaledRisks (st : CityState) : List (ℤ × ℚ) :=
  sortDescend
    (st.risk_change_histogram.map
      (fun p => (p.1, (p.2 : ℚ) / (st.risk_change_histogram_sum : ℚ))))

/-- The percentile walk closing `_check_should_send_message_gaen`: walk the
scaled buckets from the largest risk change down, accumulating
`summed_percentiles`; admit inside the person's bucket while under budget,
with a coin flip (`rng.random() < message_budget - summed_percentiles`) when
the bucket straddles the budget boundary. -/
def gaenWalk (score : ℤ) (budget coin : ℚ) :
    List (ℤ × ℚ) → ℚ → Bool
  | [], _ => false
  | (rc, pct) :: rest, summed =>
    if score = rc ∧ summed < budget then
      if budget < summed + pct then
        if coin < budget - summed then true
        else gaenWalk score budget coin rest (summed + pct)
      else true
    else gaenWalk score budget coin rest (summed + pct)

/-- `City._check_should_send_message_gaen` (base.py): reject during the
burn-in period, reject under the per-person cooldown, reject once today's
count has reached the quota, else run the percentile walk with the effective
budget `days_between_messages * message_budget / updates_per_day`.  The one
`rng.random()` draw the walk can make is passed in as `coin`. -/
def _check_should_send_message_gaen (conf : Conf) (st : CityState)
    (current_day_idx current_timestamp : ℤ) (human : ℕ)
    (risk_change_score : ℤ) (coin : ℚ) : Bool :=
  if current_day_idx - conf.intervention_day < conf.burn_in_days then false
  else if (current_timestamp - st.latest_update_time human) / 86400
      < conf.days_between_messages then false
  else if conf.message_budget_gaen * (conf.n_people : ℚ)
      ≤ (st.sent_messages_by_day current_day_idx : ℚ) then false
  else
    let budget := (conf.days_between_messages : ℚ) * conf.message_budget_gaen
      / conf.updates_per_day
    gaenWalk risk_change_score budget coin (scaledRisks st) 0

/-- The body of the per-message loop of `register_new_messages`: skip the
message when GAEN is on and the controller rejects it; otherwise count it for
the day, bump the sender's latest update time, and append it to the
receiver's personal mailbox under the message's uid.  `scores` gives each
updater's `get_risk_level_change_score` (computed by `contact_book`, which is
not under `src/`), and `coins i` is the random draw available to the `i`-th
message's admission check. -/
def registerOne (conf : Conf) (scores : ℕ → ℤ) (coins : ℕ → ℚ)
    (current_day_idx current_timestamp : ℤ) (st : CityState)
    (m : UpdateMessage) (i : ℕ) : CityState :=
  if conf.use_gaen
      ∧ ¬ _check_should_send_message_gaen conf st current_day_idx
          current_timestamp m.sender (scores m.sender) (coins i) then st
  else
    { st with
      sent_messages_by_day := fun d =>
        if d = current_day_idx then st.sent_messages_by_day current_day_idx + 1
        else st.sent_messages_by_day d,
      latest_update_time := fun h =>
        if h = m.sender then max (st.latest_update_time m.sender) current_timestamp
        else st.latest_update_time h,
      global_mailbox := fun u k =>
        if u = m.receiver ∧ k = m.uid then st.global_mailbox u k ++ [m]
        else st.global_mailbox u k }

/-- The per-message loop of `register_new_messages`, message `i` first. -/
def registerLoop (conf : Conf) (scores : ℕ → ℤ) (coins : ℕ → ℚ)
    (current_day_idx current_timestamp : ℤ) :
    List UpdateMessage → ℕ → CityState → CityState
  | [], _, st => st
  | m :: ms, i, st =>
    registerLoop conf scores coins current_day_idx current_timestamp ms (i + 1)
      (registerOne conf scores coins current_day_idx current_timestamp st m i)

/-- `City.register_new_messages` (base.py): under GAEN, first fold every
distinct updater's risk-change score into the run-wide histogram (a set of
humans, so once per distinct sender) and grow the running sum; then run the
per-message admission loop. -/
def register_new_messages (conf : Conf) (scores : ℕ → ℤ) (coins : ℕ → ℚ)
    (current_day_idx current_timestamp : ℤ) (msgs : List UpdateMessage)
    (st : CityState) : CityState :=
  let senders := (msgs.map (fun m => m.sender)).dedup
  let st1 :=
    if conf.use_gaen then
      { st with
        risk_change_histogram :=
          senders.foldl (fun h hm => histIncr h (scores hm))
            st.risk_change_histogram,
        risk_change_histogram_sum :=
          st.risk_change_histogram_sum + senders.length }
    else st
  registerLoop conf scores coins current_day_idx current_timestamp msgs 0 st1

/-- `City.cleanup_global_mailbox` (base.py): keep exactly the messages with
`(current_timestamp - encounter_time).days <= TRACING_N_DAYS_HISTORY`; a key
or mailbox left with no surviving message is absent from the rebuilt dicts,
which the functional representation renders as `[]`. -/
def cleanup_global_mailbox (conf : Conf) (current_timestamp : ℤ)
    (gm : ℕ → ℕ → List UpdateMessage) : ℕ → ℕ → List UpdateMessage :=
  fun user key =>
    (gm user key).filter
      (fun m => (current_timestamp - m.encounter_time) / 86400
        ≤ conf.tracing_n_days_history)

/-! ## Concrete scenario data -/

/-- The configuration of the spec's budget scenario: GAEN on, quota fraction
1, intervention starting on day 5, burn-in of 2 days, 2 days between a
person's messages, one update slot per day, population 3, 14-day retention. -/
def confScenario : Conf :=
  ⟨true, 1, 5, 2, 2, 1, 3, 14⟩

/-- A concrete run state for the scenario theorems: one histogram bucket at
risk-change score 7 with count 1, no messages sent yet, every person's last
update at timestamp 0, and an empty global mailbox. -/
def stScenario : CityState :=
  ⟨[(7, 1)], 1, fun _ => 0, fun _ => 0, fun _ _ => []⟩

/-- A concrete update message: mailbox key 0, encounter at timestamp 0, from
person 0 to person 1. -/
def msgScenario : UpdateMessage := ⟨0, 0, 0, 1⟩

/-- A concrete encounter message: uid 1111, coded risk 1000, day 0. -/
def encA : EncMessage := ⟨[true, true, true, true], [true, false, false, false], 0, 0⟩

/-- A concrete encounter message: uid 0000, coded risk 1000, day 5. -/
def encB : EncMessage := ⟨[false, false, false, false], [true, false, false, false], 5, 1⟩

/-- A run state like `stScenario` whose sent counter has already reached the
scenario quota (3 messages) on every day. -/
def stFull : CityState :=
  ⟨[(7, 1)], 1, fun _ => 3, fun _ => 0, fun _ _ => []⟩

/-- A concrete incoming message with the same uid as `encA`, on the same
day. -/
def encC : EncMessage := ⟨[true, true, true, true], [false, true, false, false], 0, 9⟩

/-- A concrete cluster entry: group 0, previous risk 1, carry-over 1. -/
def entA : ClusterEntry := ⟨0, 1, 1⟩

/-- A concrete one-entry cluster table holding `encA` in group 0. -/
def tabA : ClusterTable := [(encA, entA)]

/-! ## Codec lemmas -/

theorem bitsToNat_replicate_false_append (j : ℕ) (bs : List Bool) :
    bitsToNat (List.replicate j false ++ bs) = bitsToNat bs := by
  induction j with
  | zero => rfl
  | succ j ih => simpa [bitsToNat] using ih

theorem bitsToNat_append_bit (bs : List Bool) (b : Bool) :
    bitsToNat (bs ++ [b]) = 2 * bitsToNat bs + (if b then 1 else 0) := by
  induction bs with
  | nil => simp [bitsToNat]
  | cons x bs ih =>
    have hlen : (bs ++ [b]).length = bs.length + 1 := by simp
    simp only [List.cons_append, bitsToNat, List.append_eq, ih, hlen]
    ring

theorem bitsToNat_natToBits : ∀ n : ℕ, bitsToNat (natToBits n) = n := by
  intro n
  induction n using Nat.strong_induction_on with
  | _ n ih =>
    match n with
    | 0 => simp [natToBits, bitsToNat]
    | n + 1 =>
      rw [natToBits, bitsToNat_append_bit,
        ih ((n + 1) / 2) (Nat.div_lt_self (Nat.succ_pos n) one_lt_two)]
      have h2 : (n + 1) % 2 = 0 ∨ (n + 1) % 2 = 1 := by omega
      rcases h2 with h | h <;>
        · simp [h]
          omega

theorem floor_natCast_add_half (k : ℕ) : ⌊(k : ℚ) + 1 / 2⌋ = k := by
  rw [Int.floor_eq_iff]
  constructor
  · push_cast
    linarith
  · push_cast
    linarith

theorem decode_encode_eq (k : ℕ) (hk : (k : ℚ) / 16 ≠ 1) :
    binary_to_float (message_risk ((k : ℚ) / 16)) = (k : ℚ) / 16 := by
  have hfloor : ⌊(k : ℚ) / 16 * 16 + 1 / 2⌋ = k := by
    rw [div_mul_cancel₀ _ (by norm_num : (16 : ℚ) ≠ 0)]
    exact floor_natCast_add_half k
  rw [message_risk, if_neg hk, float_to_binary]
  simp only [hfloor, Int.toNat_natCast, binary_to_float,
    bitsToNat_replicate_false_append, bitsToNat_natToBits]

/-! ## C9: risk code round-trip -/

/-- C9 counterexample: the risk value 1.0 is an exact multiple of the
quantization step 1/16, lies in [0, 1], yet decoding its encoding yields
15/16, not 1.0; with 17 multiples of 1/16 in [0, 1] and only 16 four-bit
codes the round-trip claim cannot hold at every multiple. -/
theorem C9_roundtrip_counterexample :
    (1 : ℚ) = 16 * (1 / 16) ∧ binary_to_float (message_risk 1) ≠ 1 := by
  constructor
  · norm_num
  · simp only [binary_to_float, message_risk, if_pos rfl]
    norm_num [bitsToNat]

/-- C9 (amended): for every risk value `k/16` with `k ≤ 15` — every exact
multiple of the quantization step except 1.0 itself — decoding the encoded
risk returns the value exactly, and the encoder maps 1.0 to the all-ones
4-bit code (which decodes to 15/16). -/
theorem C9_roundtrip_amended (k : ℕ) (hk : k ≤ 15) :
    binary_to_float (message_risk ((k : ℚ) / 16)) = (k : ℚ) / 16 ∧
    message_risk 1 = [true, true, true, true] := by
  refine ⟨decode_encode_eq k ?_, by simp [message_risk]⟩
  intro h
  rw [div_eq_one_iff_eq (by norm_num : (16 : ℚ) ≠ 0)] at h
  have hk16 : k = 16 := by exact_mod_cast h
  omega

/-- C9 witness: the round-trip at the concrete multiple 3/16. -/
theorem C9_roundtrip_witness :
    binary_to_float (message_risk ((3 : ℕ) / 16 : ℚ)) = ((3 : ℕ) / 16 : ℚ) ∧
    message_risk 1 = [true, true, true, true] :=
  C9_roundtrip_amended 3 (by norm_num)

/-! ## C10: uid rotation -/

/-- C10 counterexample: on the uid 0001, `update_uid` pops the newest (last)
bit and appends the fresh bit, producing 0000; dropping the oldest (first)
bit and appending the fresh bit would produce 0010 instead. -/
theorem C10_rotate_counterexample :
    update_uid (some [false, false, false, true]) false
        [false, false, false, false] = [false, false, false, false] ∧
    update_uid (some [false, false, false, true]) false
        [false, false, false, false]
      ≠ [false, false, false, true].drop 1 ++ [false] := by
  exact ⟨rfl, by decide⟩

/-- C10 (amended): on an existing identifier, `update_uid` drops the newest
(last) bit and appends one fresh random bit — it replaces the last bit and
keeps the other three — and when no prior identifier exists it returns the
freshly drawn fully random 4-bit identifier; after any number of `update_uid`
calls the identifier's length is exactly 4 bits. -/
theorem C10_rotate_amended (u freshId : List Bool) (b : Bool) (bits : ℕ → Bool)
    (n : ℕ) (hu : u.length = 4) (hj : freshId.length = 4) :
    update_uid (some u) b freshId = u.dropLast ++ [b] ∧
    (update_uid (some u) b freshId).length = 4 ∧
    update_uid none b freshId = freshId ∧
    ∀ v, iterate_uid bits freshId n = some v → v.length = 4 := by
  refine ⟨rfl, by simp [update_uid, hu], rfl, ?_⟩
  induction n with
  | zero => intro v hv; exact absurd hv (by simp [iterate_uid])
  | succ n ih =>
    intro v hv
    rw [iterate_uid, Option.some_inj] at hv
    cases hiter : iterate_uid bits freshId n with
    | none => rw [hiter] at hv; simp [update_uid, ← hv, hj]
    | some w =>
      rw [hiter] at hv
      have hw : w.length = 4 := ih w hiter
      simp [update_uid, ← hv, hw]

/-- C10 witness: the amended rotation facts at a concrete identifier and
random stream. -/
theorem C10_rotate_witness :
    update_uid (some [true, false, true, false]) true
        [false, false, false, false]
      = [true, false, true, false].dropLast ++ [true] ∧
    (update_uid (some [true, false, true, false]) true
        [false, false, false, false]).length = 4 ∧
    update_uid none true [false, false, false, false]
      = [false, false, false, false] ∧
    ∀ v, iterate_uid (fun _ => true) [false, false, false, false] 2 = some v →
      v.length = 4 :=
  C10_rotate_amended [true, false, true, false] [false, false, false, false]
    true (fun _ => true) 2 (by decide) (by decide)

/-! ## Risk bounds for decoded message risks -/

theorem binary_to_float_nonneg (bs : List Bool) : 0 ≤ binary_to_float bs := by
  unfold binary_to_float
  positivity

theorem bitsToNat_lt_two_pow (bs : List Bool) : bitsToNat bs < 2 ^ bs.length := by
  induction bs with
  | nil => simp [bitsToNat]
  | cons b bs ih =>
    simp only [bitsToNat, List.length_cons, pow_succ]
    cases b <;> simp <;> omega

theorem binary_to_float_le_one (bs : List Bool) (h : bs.length = 4) :
    binary_to_float bs ≤ 1 := by
  have h16 : bitsToNat bs < 16 := by
    have := bitsToNat_lt_two_pow bs
    rw [h] at this
    simpa using this
  unfold binary_to_float
  rw [div_le_one (by norm_num)]
  exact_mod_cast h16.le

/-! ## C7: the cluster-aware (eilif) fusion model -/

/-- C7: under the eilif model with a message whose key is not yet in the
cluster table, the source computes the update `m * transmission_proba` and
then fails (Python KeyError on `human.M[msg_enc]['previous_risk'] = m_risk`)
before the update is ever added to the risk or the entry created; evaluated
here on an empty table and a concrete message. -/
theorem C7_eilif_unseen_fails :
    update_risk_encounter (1 / 2) false [] 0
        ⟨[true, true, false, false], [true, false, false, false], 0, 7⟩
        RiskModel.eilif
      = Except.error () := rfl

/-! ## C8: the monotonic (yoshua) fusion model -/

theorem yoshua_step_bounds (P : ℚ) (clip : Bool) (M : ClusterTable) (r : ℚ)
    (m : EncMessage) (hP0 : 0 ≤ P) (hP1 : P ≤ 1) (hr0 : 0 ≤ r) (hr1 : r ≤ 1)
    (hm : m.risk.length = 4) :
    r ≤ riskOf (update_risk_encounter P clip M r m .yoshua) ∧
    riskOf (update_risk_encounter P clip M r m .yoshua) ≤ 1 ∧
    0 ≤ riskOf (update_risk_encounter P clip M r m .yoshua) := by
  have hm0 : 0 ≤ binary_to_float m.risk := binary_to_float_nonneg _
  have hm1 : binary_to_float m.risk ≤ 1 := binary_to_float_le_one _ hm
  simp only [update_risk_encounter, riskOf, clipRisk]
  set mr := binary_to_float m.risk with hmr
  have h1r : 0 ≤ 1 - r := by linarith
  have hfac : mr - mr * r = mr * (1 - r) := by ring
  have hA : mr * (1 - r) ≤ 1 - r := mul_le_of_le_one_left h1r hm1
  have hB : mr * (1 - r) * P ≤ mr * (1 - r) :=
    mul_le_of_le_one_right (mul_nonneg hm0 h1r) hP1
  have hC : 0 ≤ mr * (1 - r) * P := mul_nonneg (mul_nonneg hm0 h1r) hP0
  have hu0 : 0 ≤ (if r < mr then (mr - mr * r) * P else 0) := by
    split
    · rw [hfac]
      exact hC
    · exact le_refl 0
  have hu1 : r + (if r < mr then (mr - mr * r) * P else 0) ≤ 1 := by
    split
    · rw [hfac]
      linarith
    · linarith
  cases clip with
  | false =>
    simp only [if_neg Bool.false_ne_true]
    exact ⟨by linarith, by linarith, by linarith⟩
  | true =>
    simp only [if_pos rfl]
    refine ⟨le_min (by linarith) (by linarith), min_le_right _ _,
      le_min (by linarith) (by norm_num)⟩

/-- C8: under the monotonic (yoshua) model, for every starting risk in [0,1],
every transmission probability in [0,1] and every sequence of incoming
messages with 4-bit coded risks, the sequence of fused risk values is
non-decreasing: each fusion leaves the risk unchanged when the decoded risk
does not exceed it, and otherwise adds the non-negative update
`(m - m * current) * transmission_proba`. -/
theorem C8_yoshua_monotone (P : ℚ) (clip : Bool) (M : ClusterTable) (r0 : ℚ)
    (msgs : List EncMessage) (hP0 : 0 ≤ P) (hP1 : P ≤ 1)
    (hr0 : 0 ≤ r0) (hr1 : r0 ≤ 1) (hm : ∀ m ∈ msgs, m.risk.length = 4) :
    List.Chain' (· ≤ ·) (yoshuaSeq P clip M r0 msgs) := by
  induction msgs generalizing r0 with
  | nil => simp [yoshuaSeq]
  | cons m ms ih =>
    obtain ⟨h1, h2, h3⟩ :=
      yoshua_step_bounds P clip M r0 m hP0 hP1 hr0 hr1 (hm m (by simp))
    rw [yoshuaSeq, List.chain'_cons']
    have hhead : ∀ (r : ℚ) (l : List EncMessage),
        (yoshuaSeq P clip M r l).head? = some r := by
      intro r l
      cases l <;> rfl
    refine ⟨?_, ih _ h3 h2 (fun x hx => hm x (by simp [hx]))⟩
    intro b hb
    rw [hhead, Option.mem_def, Option.some_inj] at hb
    rw [← hb]
    exact h1

/-- C8 witness: the monotone chain at a concrete run. -/
theorem C8_yoshua_monotone_witness :
    List.Chain' (· ≤ ·)
      (yoshuaSeq (1 / 2) false [] 0
        [⟨[true, true, true, true], [true, false, false, false], 0, 0⟩]) :=
  C8_yoshua_monotone (1 / 2) false [] 0
    [⟨[true, true, true, true], [true, false, false, false], 0, 0⟩]
    (by norm_num) (by norm_num) le_rfl zero_le_one
    (by intro m hm; simp at hm; rw [hm]; rfl)

/-! ## Cluster table lemmas -/

theorem setItem_cons_of_ne (p : EncMessage × ClusterEntry) (M : ClusterTable)
    (k : EncMessage) (v : ClusterEntry) (hp : p.1 ≠ k) :
    setItem (p :: M) k v = p :: setItem M k v := by
  by_cases hM : M.any (fun q => decide (q.1 = k))
  · simp [setItem, List.any_cons, hp, hM]
  · simp [setItem, List.any_cons, hp, hM]

theorem lookupM_cons_of_ne (p : EncMessage × ClusterEntry) (M : ClusterTable)
    (k : EncMessage) (hp : p.1 ≠ k) :
    lookupM (p :: M) k = lookupM M k := by
  simp [lookupM, List.find?_cons, hp]

theorem lookupM_setItem_self (M : ClusterTable) (k : EncMessage)
    (v : ClusterEntry) : lookupM (setItem M k v) k = some v := by
  induction M with
  | nil => simp [setItem, lookupM, List.find?]
  | cons p M ih =>
    by_cases hp : p.1 = k
    · have hcond : (p :: M).any (fun q => decide (q.1 = k)) = true := by
        simp [List.any_cons, hp]
      simp [setItem, hcond, lookupM, List.find?, hp]
    · rw [setItem_cons_of_ne p M k v hp, lookupM_cons_of_ne p _ k hp]
      exact ih

theorem keysOf_any_iff (M : ClusterTable) (k : EncMessage) :
    M.any (fun q => decide (q.1 = k)) = true ↔ k ∈ keysOf M := by
  simp [keysOf, List.any_eq_true, List.mem_map]

theorem setItem_of_fresh (M : ClusterTable) (k : EncMessage) (v : ClusterEntry)
    (h : k ∉ keysOf M) : setItem M k v = M ++ [(k, v)] := by
  rw [setItem, if_neg]
  intro hc
  exact h ((keysOf_any_iff M k).mp hc)

theorem mem_scoresList (M : ClusterTable) (mi : EncMessage)
    (p : EncMessage × ClusterEntry) (s : ℕ)
    (h : (p, s) ∈ scoresList M mi) : p ∈ M ∧ scoreMsg mi p.1 = some s := by
  rw [scoresList, List.mem_filterMap] at h
  obtain ⟨a, ha, hfa⟩ := h
  rw [Option.map_eq_some'] at hfa
  obtain ⟨t, hsc, hpair⟩ := hfa
  obtain ⟨hap, hts⟩ := Prod.mk.injEq .. |>.mp hpair
  rw [← hap, ← hts] at *
  exact ⟨ha, hsc⟩

theorem scoresList_nil (mi : EncMessage) : scoresList [] mi = [] := rfl

theorem foldl_pick_mem (l : List ((EncMessage × ClusterEntry) × ℕ))
    (a : (EncMessage × ClusterEntry) × ℕ) :
    l.foldl (fun best y => if best.2 < y.2 then y else best) a ∈ a :: l := by
  induction l generalizing a with
  | nil => simp
  | cons y l ih =>
    simp only [List.foldl_cons]
    by_cases hy : a.2 < y.2
    · simp only [if_pos hy]
      exact List.mem_cons_of_mem a (ih y)
    · simp only [if_neg hy]
      rcases List.mem_cons.mp (ih a) with h | h
      · rw [h]
        exact List.mem_cons_self a _
      · exact List.mem_cons_of_mem a (List.mem_cons_of_mem y h)

theorem foldl_pick_ge (l : List ((EncMessage × ClusterEntry) × ℕ))
    (a : (EncMessage × ClusterEntry) × ℕ) :
    a.2 ≤ (l.foldl (fun best y => if best.2 < y.2 then y else best) a).2 ∧
    ∀ y ∈ l, y.2 ≤ (l.foldl (fun best y => if best.2 < y.2 then y else best) a).2 := by
  induction l generalizing a with
  | nil => simp
  | cons y l ih =>
    simp only [List.foldl_cons]
    obtain ⟨h1, h2⟩ := ih (if a.2 < y.2 then y else a)
    have hstep : a.2 ≤ (if a.2 < y.2 then y else a).2 ∧
        y.2 ≤ (if a.2 < y.2 then y else a).2 := by
      split <;> omega
    refine ⟨le_trans hstep.1 h1, ?_⟩
    intro z hz
    rcases List.mem_cons.mp hz with rfl | hzl
    · exact le_trans hstep.2 h1
    · exact h2 z hzl

theorem pickMax_eq_none_iff (l : List ((EncMessage × ClusterEntry) × ℕ)) :
    pickMax l = none ↔ l = [] := by
  cases l <;> simp [pickMax]

theorem pickMax_mem (l : List ((EncMessage × ClusterEntry) × ℕ))
    (x : (EncMessage × ClusterEntry) × ℕ) (h : pickMax l = some x) : x ∈ l := by
  cases l with
  | nil => simp [pickMax] at h
  | cons a l =>
    rw [pickMax, Option.some_inj] at h
    rw [← h]
    exact foldl_pick_mem l a

theorem pickMax_ge (l : List ((EncMessage × ClusterEntry) × ℕ))
    (x : (EncMessage × ClusterEntry) × ℕ) (h : pickMax l = some x) :
    ∀ y ∈ l, y.2 ≤ x.2 := by
  cases l with
  | nil => simp
  | cons a l =>
    rw [pickMax, Option.some_inj] at h
    intro y hy
    rw [← h]
    rcases List.mem_cons.mp hy with rfl | hyl
    · exact (foldl_pick_ge l y).1
    · exact (foldl_pick_ge l a).2 y hyl

theorem pickMax_eq_of_unique (l : List ((EncMessage × ClusterEntry) × ℕ))
    (x : (EncMessage × ClusterEntry) × ℕ) (hx : x ∈ l)
    (hmax : ∀ y ∈ l, y ≠ x → y.2 < x.2) : pickMax l = some x := by
  cases l with
  | nil => simp at hx
  | cons a l =>
    have hmem := foldl_pick_mem l a
    by_cases hz : l.foldl (fun best y => if best.2 < y.2 then y else best) a = x
    · rw [pickMax, hz]
    · exfalso
      have hlt := hmax _ hmem hz
      have hge : x.2 ≤ (l.foldl (fun best y => if best.2 < y.2 then y else best) a).2 := by
        rcases List.mem_cons.mp hx with rfl | hxl
        · exact (foldl_pick_ge l x).1
        · exact (foldl_pick_ge l a).2 x hxl
      omega

theorem le_foldl_max (l : List ℕ) (a : ℕ) :
    a ≤ l.foldl max a ∧ ∀ x ∈ l, x ≤ l.foldl max a := by
  induction l generalizing a with
  | nil => simp
  | cons y l ih =>
    obtain ⟨h1, h2⟩ := ih (max a y)
    simp only [List.foldl_cons]
    refine ⟨le_trans (le_max_left a y) h1, ?_⟩
    intro x hx
    rcases List.mem_cons.mp hx with rfl | hxl
    · exact le_trans (le_max_right a x) h1
    · exact h2 x hxl

theorem le_maxAssignment (M : ClusterTable) (q : EncMessage × ClusterEntry)
    (h : q ∈ M) : q.2.assignment ≤ maxAssignment M := by
  exact (le_foldl_max _ 0).2 q.2.assignment
    (List.mem_map.mpr ⟨q, h, rfl⟩)

theorem maxAssignment_append (M : ClusterTable) (q : EncMessage × ClusterEntry) :
    maxAssignment (M ++ [q]) = max (maxAssignment M) q.2.assignment := by
  simp [maxAssignment, List.foldl_append]

/-! ## Behaviour of add_message_to_cluster -/

theorem add_lookup_carry (P : ℚ) (M : ClusterTable) (mi : EncMessage) :
    ∃ g, lookupM (add_message_to_cluster P M mi) mi
      = some ⟨g, binary_to_float mi.risk, P⟩ := by
  unfold add_message_to_cluster
  cases hpick : pickMax (scoresList M mi) with
  | some x =>
    obtain ⟨p, s⟩ := x
    dsimp only
    exact ⟨p.2.assignment, lookupM_setItem_self M mi _⟩
  | none =>
    dsimp only
    by_cases hM : M = []
    · rw [if_pos hM]
      exact ⟨0, lookupM_setItem_self M mi _⟩
    · rw [if_neg hM]
      exact ⟨maxAssignment M + 1, lookupM_setItem_self M mi _⟩

theorem add_fresh_append (P : ℚ) (M : ClusterTable) (mi : EncMessage)
    (h : mi ∉ keysOf M) :
    ∃ e : ClusterEntry, add_message_to_cluster P M mi = M ++ [(mi, e)] ∧
      e.previous_risk = binary_to_float mi.risk ∧
      e.carry_over_transmission_proba = P ∧
      ((∃ p s, pickMax (scoresList M mi) = some (p, s) ∧
          e.assignment = p.2.assignment) ∨
        (scoresList M mi = [] ∧ M = [] ∧ e.assignment = 0) ∨
        (scoresList M mi = [] ∧ M ≠ [] ∧
          e.assignment = maxAssignment M + 1)) := by
  unfold add_message_to_cluster
  cases hpick : pickMax (scoresList M mi) with
  | some x =>
    obtain ⟨p, s⟩ := x
    dsimp only
    rw [setItem_of_fresh M mi _ h]
    exact ⟨_, rfl, rfl, rfl, Or.inl ⟨p, s, rfl, rfl⟩⟩
  | none =>
    dsimp only
    rw [pickMax_eq_none_iff] at hpick
    by_cases hM : M = []
    · rw [if_pos hM, setItem_of_fresh M mi _ h]
      exact ⟨_, rfl, rfl, rfl, Or.inr (Or.inl ⟨hpick, hM, rfl⟩)⟩
    · rw [if_neg hM, setItem_of_fresh M mi _ h]
      exact ⟨_, rfl, rfl, rfl, Or.inr (Or.inr ⟨hpick, hM, rfl⟩)⟩

theorem add_inv (P : ℚ) (M : ClusterTable) (mi : EncMessage) (c : ℕ)
    (hfresh : mi ∉ keysOf M) (hc0 : M = [] → c = 0)
    (hc1 : M ≠ [] → c = maxAssignment M + 1) :
    add_message_to_cluster P M mi ≠ [] ∧
    c + (if createsGroup M mi then 1 else 0)
      = maxAssignment (add_message_to_cluster P M mi) + 1 := by
  obtain ⟨e, hadd, _, _, hbranch⟩ := add_fresh_append P M mi hfresh
  rw [hadd]
  refine ⟨by simp, ?_⟩
  rw [maxAssignment_append]
  rcases hbranch with ⟨p, s, hpick, hgid⟩ | ⟨hsc, hM, hgid⟩ | ⟨hsc, hM, hgid⟩
  · have hps := mem_scoresList M mi p s (pickMax_mem _ _ hpick)
    have hMne : M ≠ [] := List.ne_nil_of_mem hps.1
    have hsc : scoresList M mi ≠ [] := by
      intro hc
      rw [hc] at hpick
      exact absurd hpick (by simp [pickMax])
    have hδ : createsGroup M mi = false := by
      simp [createsGroup, hsc]
    rw [hδ, if_neg (by simp), hc1 hMne, hgid,
      max_eq_left (le_maxAssignment M p hps.1)]
  · have hδ : createsGroup M mi = true := by simp [createsGroup, hsc]
    rw [hδ, if_pos rfl, hc0 hM, hgid, hM]
    simp [maxAssignment]
  · have hδ : createsGroup M mi = true := by simp [createsGroup, hsc]
    rw [hδ, if_pos rfl, hc1 hM, hgid,
      max_eq_right (Nat.le_succ _)]

theorem processMessages_inv (P : ℚ) (msgs : List EncMessage) :
    ∀ (M : ClusterTable) (c : ℕ), msgs.Nodup →
      (∀ m ∈ msgs, m ∉ keysOf M) →
      (M = [] → c = 0) → (M ≠ [] → c = maxAssignment M + 1) →
      keysOf (processMessages P M msgs) = keysOf M ++ msgs ∧
      (processMessages P M msgs ≠ [] →
        c + groupsCreated P M msgs
          = maxAssignment (processMessages P M msgs) + 1) := by
  induction msgs with
  | nil =>
    intro M c _ _ _ hc1
    exact ⟨by simp [processMessages], fun h => by
      simpa [groupsCreated] using hc1 h⟩
  | cons mi ms ih =>
    intro M c hnd hdisj hc0 hc1
    have hfresh : mi ∉ keysOf M := hdisj mi (by simp)
    obtain ⟨e, hadd, _, _, _⟩ := add_fresh_append P M mi hfresh
    obtain ⟨hne, hinv⟩ := add_inv P M mi c hfresh hc0 hc1
    have hkeys' : keysOf (add_message_to_cluster P M mi) = keysOf M ++ [mi] := by
      rw [hadd]
      simp [keysOf]
    have hdisj' : ∀ m ∈ ms, m ∉ keysOf (add_message_to_cluster P M mi) := by
      intro m hm
      rw [hkeys']
      simp only [List.mem_append, List.mem_singleton]
      rintro (hcase | hcase)
      · exact hdisj m (by simp [hm]) hcase
      · rw [hcase] at hm
        exact (List.nodup_cons.mp hnd).1 hm
    obtain ⟨hk, h1⟩ := ih (add_message_to_cluster P M mi)
      (c + if createsGroup M mi then 1 else 0)
      (List.nodup_cons.mp hnd).2 hdisj'
      (fun hM' => absurd hM' hne) (fun _ => hinv)
    have hproc : processMessages P M (mi :: ms)
        = processMessages P (add_message_to_cluster P M mi) ms := by
      simp [processMessages]
    constructor
    · rw [hproc, hk, hkeys']
      simp
    · intro hnen
      rw [hproc] at hnen ⊢
      rw [groupsCreated, ← Nat.add_assoc]
      exact h1 hnen

/-! ## C6: cluster assignment totality -/

/-- C6: after feeding any N pairwise-distinct encounter messages through
`add_message_to_cluster` starting from an empty table, the table has exactly
N entries and every group id in it is at most the number of groups created
during the run; moreover a call on a message whose key is not yet in the
table inserts exactly one new entry and keeps every existing entry. -/
theorem C6_cluster_totality (P : ℚ) (msgs : List EncMessage)
    (M : ClusterTable) (mi : EncMessage) (hnd : msgs.Nodup)
    (hfresh : mi ∉ keysOf M) :
    (processMessages P [] msgs).length = msgs.length ∧
    (∀ q ∈ processMessages P [] msgs,
      q.2.assignment ≤ groupsCreated P [] msgs) ∧
    (add_message_to_cluster P M mi).length = M.length + 1 ∧
    (∀ q ∈ M, q ∈ add_message_to_cluster P M mi) := by
  obtain ⟨hk, h1⟩ := processMessages_inv P msgs [] 0 hnd
    (by simp [keysOf]) (fun _ => rfl) (fun hne => absurd rfl hne)
  refine ⟨?_, ?_, ?_, ?_⟩
  · have hlen := congrArg List.length hk
    simpa [keysOf] using hlen
  · intro q hq
    have hnen : processMessages P [] msgs ≠ [] := List.ne_nil_of_mem hq
    have hmaxa := h1 hnen
    have hle := le_maxAssignment _ q hq
    omega
  · obtain ⟨e, hadd, _, _, _⟩ := add_fresh_append P M mi hfresh
    rw [hadd]
    simp
  · obtain ⟨e, hadd, _, _, _⟩ := add_fresh_append P M mi hfresh
    rw [hadd]
    intro q hq
    exact List.mem_append_left _ hq

/-- C6 witness: two distinct concrete messages through an empty table, and a
fresh insertion into a nonempty concrete table. -/
theorem C6_cluster_totality_witness :
    (processMessages (1 / 2) [] [encA, encB]).length = 2 ∧
    (∀ q ∈ processMessages (1 / 2) [] [encA, encB],
      q.2.assignment ≤ groupsCreated (1 / 2) [] [encA, encB]) ∧
    (add_message_to_cluster (1 / 2) tabA encB).length = tabA.length + 1 ∧
    (∀ q ∈ tabA, q ∈ add_message_to_cluster (1 / 2) tabA encB) :=
  C6_cluster_totality (1 / 2) [encA, encB] tabA encB
    (by decide) (by decide)

/-! ## C5: cluster scoring and assignment -/

/-- C5: the Contact Cluster Engine scores a stored message 3 on an exact
pseudonym match on the same day, 2 on a first-3-bit match exactly one day
earlier, 1 on a first-2-bit match exactly two days earlier and 0 (weakest
accepted) on a first-bit match exactly two days earlier; the incoming message
joins the group of the single highest-scoring stored message when one exists,
starts group 0 on an empty table, and otherwise starts a new group numbered
one above the current maximum; the new entry's carry-over transmission
probability is always set to the configured base transmission probability. -/
theorem C5_cluster_scoring (P : ℚ) (M : ClusterTable) (mi : EncMessage)
    (p : EncMessage × ClusterEntry) (s : ℕ)
    (hp : (p, s) ∈ scoresList M mi)
    (hmax : ∀ q t, (q, t) ∈ scoresList M mi → q ≠ p → t < s) :
    (∀ a b : EncMessage, a.uid = b.uid → a.day = b.day →
      scoreMsg a b = some 3) ∧
    (∀ a b : EncMessage, a.uid.take 3 = b.uid.take 3 → a.day - 1 = b.day →
      scoreMsg a b = some 2) ∧
    (∀ a b : EncMessage, a.uid.take 2 = b.uid.take 2 → a.day - 2 = b.day →
      scoreMsg a b = some 1) ∧
    (∀ a b : EncMessage, a.uid.take 1 = b.uid.take 1 →
      a.uid.take 2 ≠ b.uid.take 2 → a.day - 2 = b.day →
      scoreMsg a b = some 0) ∧
    lookupM (add_message_to_cluster P M mi) mi
      = some ⟨p.2.assignment, binary_to_float mi.risk, P⟩ ∧
    (∀ mj : EncMessage, add_message_to_cluster P [] mj
      = [(mj, ⟨0, binary_to_float mj.risk, P⟩)]) ∧
    (∀ (N : ClusterTable) (mj : EncMessage), scoresList N mj = [] → N ≠ [] →
      lookupM (add_message_to_cluster P N mj) mj
        = some ⟨maxAssignment N + 1, binary_to_float mj.risk, P⟩) ∧
    (∀ (N : ClusterTable) (mj : EncMessage) (e : ClusterEntry),
      lookupM (add_message_to_cluster P N mj) mj = some e →
      e.carry_over_transmission_proba = P) := by
  refine ⟨?_, ?_, ?_, ?_, ?_, ?_, ?_, ?_⟩
  · intro a b h1 h2
    unfold scoreMsg
    rw [if_pos ⟨h1, h2⟩]
  · intro a b h1 h2
    have hn1 : ¬(a.uid = b.uid ∧ a.day = b.day) := by
      rintro ⟨_, hd⟩
      omega
    unfold scoreMsg
    rw [if_neg hn1, if_pos ⟨h1, h2⟩]
  · intro a b h1 h2
    have hn1 : ¬(a.uid = b.uid ∧ a.day = b.day) := by
      rintro ⟨_, hd⟩
      omega
    have hn2 : ¬(a.uid.take 3 = b.uid.take 3 ∧ a.day - 1 = b.day) := by
      rintro ⟨_, hd⟩
      omega
    unfold scoreMsg
    rw [if_neg hn1, if_neg hn2, if_pos ⟨h1, h2⟩]
  · intro a b h1 h2 h3
    have hn1 : ¬(a.uid = b.uid ∧ a.day = b.day) := by
      rintro ⟨_, hd⟩
      omega
    have hn2 : ¬(a.uid.take 3 = b.uid.take 3 ∧ a.day - 1 = b.day) := by
      rintro ⟨_, hd⟩
      omega
    have hn3 : ¬(a.uid.take 2 = b.uid.take 2 ∧ a.day - 2 = b.day) := by
      rintro ⟨ht, _⟩
      exact h2 ht
    unfold scoreMsg
    rw [if_neg hn1, if_neg hn2, if_neg hn3, if_pos ⟨h1, h3⟩]
  · have hpick : pickMax (scoresList M mi) = some (p, s) := by
      apply pickMax_eq_of_unique _ _ hp
      rintro ⟨q, t⟩ hy hne
      by_cases hq : q = p
      · subst hq
        have h1 := (mem_scoresList M mi q t hy).2
        have h2 := (mem_scoresList M mi q s hp).2
        rw [h1] at h2
        injection h2 with h2
        exact absurd (by rw [h2]) hne
      · exact hmax q t hy hq
    unfold add_message_to_cluster
    rw [hpick]
    exact lookupM_setItem_self M mi _
  · intro mj
    unfold add_message_to_cluster
    rw [scoresList_nil]
    dsimp only [pickMax]
    rw [if_pos rfl]
    simp [setItem]
  · intro N mj hsc hN
    unfold add_message_to_cluster
    rw [hsc]
    dsimp only [pickMax]
    rw [if_neg hN]
    exact lookupM_setItem_self N mj _
  · intro N mj e he
    obtain ⟨g, hg⟩ := add_lookup_carry P N mj
    rw [hg] at he
    injection he with he
    rw [← he]

/-- C5 witness: the scoring and assignment facts at a concrete table, with
the incoming message exactly matching the stored one on the same day. -/
theorem C5_cluster_scoring_witness :
    (∀ a b : EncMessage, a.uid = b.uid → a.day = b.day →
      scoreMsg a b = some 3) ∧
    (∀ a b : EncMessage, a.uid.take 3 = b.uid.take 3 → a.day - 1 = b.day →
      scoreMsg a b = some 2) ∧
    (∀ a b : EncMessage, a.uid.take 2 = b.uid.take 2 → a.day - 2 = b.day →
      scoreMsg a b = some 1) ∧
    (∀ a b : EncMessage, a.uid.take 1 = b.uid.take 1 →
      a.uid.take 2 ≠ b.uid.take 2 → a.day - 2 = b.day →
      scoreMsg a b = some 0) ∧
    lookupM (add_message_to_cluster 1 tabA encC) encC
      = some ⟨0, binary_to_float encC.risk, 1⟩ ∧
    (∀ mj : EncMessage, add_message_to_cluster 1 [] mj
      = [(mj, ⟨0, binary_to_float mj.risk, 1⟩)]) ∧
    (∀ (N : ClusterTable) (mj : EncMessage), scoresList N mj = [] → N ≠ [] →
      lookupM (add_message_to_cluster 1 N mj) mj
        = some ⟨maxAssignment N + 1, binary_to_float mj.risk, 1⟩) ∧
    (∀ (N : ClusterTable) (mj : EncMessage) (e : ClusterEntry),
      lookupM (add_message_to_cluster 1 N mj) mj = some e →
      e.carry_over_transmission_proba = 1) :=
  C5_cluster_scoring 1 tabA encC (encA, entA) 3 (by decide)
    (by
      intro q t hy hne
      have hsc : scoresList tabA encC = [((encA, entA), 3)] := rfl
      rw [hsc, List.mem_singleton] at hy
      exact absurd (Prod.ext_iff.mp hy).1 hne)

/-! ## C4: mailbox retention -/

/-- C4 counterexample: with the 14-day retention window, a message whose age
at cleanup time is 14 days plus one second survives `cleanup` (its whole-day
age `.days` is 14), yet its age strictly exceeds 14 days. -/
theorem C4_retention_counterexample :
    msgScenario ∈ cleanup_global_mailbox confScenario 1209601
      (fun u k => if u = 1 ∧ k = 0 then [msgScenario] else []) 1 0 ∧
    1209601 - msgScenario.encounter_time > 14 * 86400 := by
  decide

/-- C4 (amended): after `cleanup(now)`, every message surviving in any
personal mailbox under any key has a whole-day age
`(now - encounter_time).days` of at most the retention window — equivalently,
it is strictly younger than retention-window-plus-one days (with the 14-day
window, strictly younger than 15 days); its age may still strictly exceed 14
days by up to a day. -/
theorem C4_retention_amended (conf : Conf) (now : ℤ)
    (gm : ℕ → ℕ → List UpdateMessage) (user key : ℕ) (m : UpdateMessage)
    (hm : m ∈ cleanup_global_mailbox conf now gm user key) :
    (now - m.encounter_time) / 86400 ≤ conf.tracing_n_days_history ∧
    now - m.encounter_time < (conf.tracing_n_days_history + 1) * 86400 := by
  rw [cleanup_global_mailbox] at hm
  have h := of_decide_eq_true (List.mem_filter.mp hm).2
  exact ⟨h, by omega⟩

/-- C4 witness: the amended retention bound at the concrete surviving
message. -/
theorem C4_retention_witness :
    (1209601 - msgScenario.encounter_time) / 86400
      ≤ confScenario.tracing_n_days_history ∧
    1209601 - msgScenario.encounter_time
      < (confScenario.tracing_n_days_history + 1) * 86400 :=
  C4_retention_amended confScenario 1209601
    (fun u k => if u = 1 ∧ k = 0 then [msgScenario] else []) 1 0 msgScenario
    (by decide)

/-! ## GAEN budget controller lemmas -/

theorem check_false_of_burnin (conf : Conf) (st : CityState) (day now : ℤ)
    (human : ℕ) (score : ℤ) (coin : ℚ)
    (h : day - conf.intervention_day < conf.burn_in_days) :
    _check_should_send_message_gaen conf st day now human score coin = false := by
  unfold _check_should_send_message_gaen
  rw [if_pos h]

theorem check_false_of_cooldown (conf : Conf) (st : CityState) (day now : ℤ)
    (human : ℕ) (score : ℤ) (coin : ℚ)
    (h : now - st.latest_update_time human
      < conf.days_between_messages * 86400) :
    _check_should_send_message_gaen conf st day now human score coin = false := by
  unfold _check_should_send_message_gaen
  split_ifs with h1 h2 h3
  · rfl
  · rfl
  · rfl
  · exact absurd (by omega :
      (now - st.latest_update_time human) / 86400
        < conf.days_between_messages) h2

theorem check_false_of_quota (conf : Conf) (st : CityState) (day now : ℤ)
    (human : ℕ) (score : ℤ) (coin : ℚ)
    (hq : conf.message_budget_gaen * (conf.n_people : ℚ)
      ≤ (st.sent_messages_by_day day : ℚ)) :
    _check_should_send_message_gaen conf st day now human score coin = false := by
  unfold _check_should_send_message_gaen
  split_ifs <;> rfl

theorem check_true_sent_lt (conf : Conf) (st : CityState) (day now : ℤ)
    (human : ℕ) (score : ℤ) (coin : ℚ)
    (h : _check_should_send_message_gaen conf st day now human score coin
      = true) :
    (st.sent_messages_by_day day : ℚ)
      < conf.message_budget_gaen * (conf.n_people : ℚ) := by
  by_contra hle
  rw [check_false_of_quota conf st day now human score coin (not_lt.mp hle)] at h
  exact Bool.false_ne_true h

theorem registerOne_hist (conf : Conf) (scores : ℕ → ℤ) (coins : ℕ → ℚ)
    (day now : ℤ) (st : CityState) (m : UpdateMessage) (i : ℕ) :
    (registerOne conf scores coins day now st m i).risk_change_histogram
      = st.risk_change_histogram ∧
    (registerOne conf scores coins day now st m i).risk_change_histogram_sum
      = st.risk_change_histogram_sum := by
  unfold registerOne
  split
  · exact ⟨rfl, rfl⟩
  · exact ⟨rfl, rfl⟩

theorem registerOne_of_reject (conf : Conf) (scores : ℕ → ℤ) (coins : ℕ → ℚ)
    (day now : ℤ) (st : CityState) (m : UpdateMessage) (i : ℕ)
    (huse : conf.use_gaen = true)
    (hc : _check_should_send_message_gaen conf st day now m.sender
      (scores m.sender) (coins i) = false) :
    registerOne conf scores coins day now st m i = st := by
  unfold registerOne
  rw [if_pos ⟨huse, by rw [hc]; exact Bool.false_ne_true⟩]

theorem registerOne_sent_le (conf : Conf) (scores : ℕ → ℤ) (coins : ℕ → ℚ)
    (day now : ℤ) (st : CityState) (m : UpdateMessage) (i : ℕ)
    (huse : conf.use_gaen = true)
    (hinv : ∀ d, (st.sent_messages_by_day d : ℤ)
      ≤ ⌈conf.message_budget_gaen * (conf.n_people : ℚ)⌉) :
    ∀ d, ((registerOne conf scores coins day now st m i).sent_messages_by_day d : ℤ)
      ≤ ⌈conf.message_budget_gaen * (conf.n_people : ℚ)⌉ := by
  intro d
  unfold registerOne
  split
  · exact hinv d
  case isFalse hcond =>
    have hc : _check_should_send_message_gaen conf st day now m.sender
        (scores m.sender) (coins i) = true := by
      by_contra hcf
      exact hcond ⟨huse, hcf⟩
    have hlt := check_true_sent_lt conf st day now m.sender (scores m.sender)
      (coins i) hc
    have hltc : (st.sent_messages_by_day day : ℤ)
        < ⌈conf.message_budget_gaen * (conf.n_people : ℚ)⌉ := by
      rw [Int.lt_ceil]
      exact_mod_cast hlt
    dsimp only
    by_cases hd : d = day
    · rw [if_pos hd]
      push_cast
      omega
    · rw [if_neg hd]
      exact hinv d

theorem registerLoop_sent_le (conf : Conf) (scores : ℕ → ℤ) (coins : ℕ → ℚ)
    (day now : ℤ) (msgs : List UpdateMessage) :
    ∀ (i : ℕ) (st : CityState), conf.use_gaen = true →
    (∀ d, (st.sent_messages_by_day d : ℤ)
      ≤ ⌈conf.message_budget_gaen * (conf.n_people : ℚ)⌉) →
    ∀ d, ((registerLoop conf scores coins day now msgs i st).sent_messages_by_day d : ℤ)
      ≤ ⌈conf.message_budget_gaen * (conf.n_people : ℚ)⌉ := by
  induction msgs with
  | nil =>
    intro i st _ hinv d
    exact hinv d
  | cons m ms ih =>
    intro i st huse hinv d
    exact ih (i + 1) _ huse
      (registerOne_sent_le conf scores coins day now st m i huse hinv) d

theorem registerLoop_hist (conf : Conf) (scores : ℕ → ℤ) (coins : ℕ → ℚ)
    (day now : ℤ) (msgs : List UpdateMessage) :
    ∀ (i : ℕ) (st : CityState),
    (registerLoop conf scores coins day now msgs i st).risk_change_histogram
      = st.risk_change_histogram ∧
    (registerLoop conf scores coins day now msgs i st).risk_change_histogram_sum
      = st.risk_change_histogram_sum := by
  induction msgs with
  | nil => intro i st; exact ⟨rfl, rfl⟩
  | cons m ms ih =>
    intro i st
    obtain ⟨h1, h2⟩ := ih (i + 1) (registerOne conf scores coins day now st m i)
    obtain ⟨g1, g2⟩ := registerOne_hist conf scores coins day now st m i
    exact ⟨h1.trans g1, h2.trans g2⟩

theorem histCount_cons_eq (k : ℤ) (v : ℕ) (h : List (ℤ × ℕ)) :
    histCount ((k, v) :: h) k = v := by
  simp [histCount, List.find?_cons]

theorem histCount_cons_ne (k : ℤ) (v : ℕ) (h : List (ℤ × ℕ)) (s : ℤ)
    (hk : k ≠ s) : histCount ((k, v) :: h) s = histCount h s := by
  simp [histCount, List.find?_cons, hk]

theorem histCount_histIncr_self (h : List (ℤ × ℕ)) (s : ℤ) :
    histCount (histIncr h s) s = histCount h s + 1 := by
  induction h with
  | nil => simp [histIncr, histCount, List.find?]
  | cons p h ih =>
    obtain ⟨k, v⟩ := p
    by_cases hk : k = s
    · subst hk
      rw [histIncr, if_pos rfl, histCount_cons_eq, histCount_cons_eq]
    · rw [histIncr, if_neg hk, histCount_cons_ne k v _ s hk,
        histCount_cons_ne k v h s hk]
      exact ih

theorem histCount_histIncr_other (h : List (ℤ × ℕ)) (s t : ℤ) (hts : t ≠ s) :
    histCount (histIncr h s) t = histCount h t := by
  induction h with
  | nil =>
    show histCount [(s, 1)] t = histCount [] t
    rw [histCount_cons_ne s 1 [] t (fun hc => hts hc.symm)]
  | cons p h ih =>
    obtain ⟨k, v⟩ := p
    by_cases hk : k = s
    · subst hk
      rw [histIncr, if_pos rfl, histCount_cons_ne _ _ _ _ (fun hc => hts hc.symm),
        histCount_cons_ne _ _ _ _ (fun hc => hts hc.symm)]
    · by_cases hkt : k = t
      · subst hkt
        rw [histIncr, if_neg hk, histCount_cons_eq, histCount_cons_eq]
      · rw [histIncr, if_neg hk, histCount_cons_ne _ _ _ _ hkt,
          histCount_cons_ne _ _ _ _ hkt]
        exact ih

theorem histCount_foldl (senders : List ℕ) (scores : ℕ → ℤ)
    (h : List (ℤ × ℕ)) (s : ℤ) :
    histCount (senders.foldl (fun acc hm => histIncr acc (scores hm)) h) s
      = histCount h s + senders.countP (fun hm => decide (scores hm = s)) := by
  induction senders generalizing h with
  | nil => simp
  | cons x xs ih =>
    simp only [List.foldl_cons, ih, List.countP_cons]
    by_cases hx : scores x = s
    · rw [← hx, histCount_histIncr_self]
      simp [hx]
      omega
    · rw [histCount_histIncr_other _ _ _ (fun hc => hx hc.symm)]
      simp [hx]

theorem register_hist_formula (conf : Conf) (scores : ℕ → ℤ) (coins : ℕ → ℚ)
    (day now : ℤ) (msgs : List UpdateMessage) (st : CityState)
    (huse : conf.use_gaen = true) :
    (register_new_messages conf scores coins day now msgs st).risk_change_histogram_sum
      = st.risk_change_histogram_sum
        + ((msgs.map (fun m => m.sender)).dedup).length ∧
    (register_new_messages conf scores coins day now msgs st).risk_change_histogram
      = (msgs.map (fun m => m.sender)).dedup.foldl
          (fun h hm => histIncr h (scores hm)) st.risk_change_histogram := by
  unfold register_new_messages
  dsimp only
  rw [if_pos huse]
  obtain ⟨h1, h2⟩ := registerLoop_hist conf scores coins day now msgs 0
    { st with
      risk_change_histogram :=
        ((msgs.map (fun m => m.sender)).dedup).foldl
          (fun h hm => histIncr h (scores hm)) st.risk_change_histogram,
      risk_change_histogram_sum :=
        st.risk_change_histogram_sum
          + ((msgs.map (fun m => m.sender)).dedup).length }
  exact ⟨by rw [h2], by rw [h1]⟩

/-! ## C1: the daily GAEN message budget -/

/-- C1: under the GAEN protocol, a send decision taken once the day's sent
count has reached `quota_fraction * population_size` returns reject; an
admitted message increments exactly the current day's count by one; and a
registration call keeps every day's count at most
`⌈quota_fraction * population_size⌉` whenever it was so before. -/
theorem C1_gaen_budget (conf : Conf) (st : CityState) (day now : ℤ)
    (human : ℕ) (score : ℤ) (coin : ℚ) (scores : ℕ → ℤ) (coins : ℕ → ℚ)
    (msgs : List UpdateMessage) (m : UpdateMessage) (i : ℕ)
    (huse : conf.use_gaen = true) :
    ((conf.message_budget_gaen * (conf.n_people : ℚ)
        ≤ (st.sent_messages_by_day day : ℚ)) →
      _check_should_send_message_gaen conf st day now human score coin
        = false) ∧
    (_check_should_send_message_gaen conf st day now m.sender
        (scores m.sender) (coins i) = true →
      (registerOne conf scores coins day now st m i).sent_messages_by_day day
          = st.sent_messages_by_day day + 1 ∧
      ∀ d, d ≠ day →
        (registerOne conf scores coins day now st m i).sent_messages_by_day d
          = st.sent_messages_by_day d) ∧
    ((∀ d, (st.sent_messages_by_day d : ℤ)
        ≤ ⌈conf.message_budget_gaen * (conf.n_people : ℚ)⌉) →
      ∀ d, ((register_new_messages conf scores coins day now msgs
          st).sent_messages_by_day d : ℤ)
        ≤ ⌈conf.message_budget_gaen * (conf.n_people : ℚ)⌉) := by
  refine ⟨check_false_of_quota conf st day now human score coin, ?_, ?_⟩
  · intro hc
    unfold registerOne
    rw [if_neg (fun hcontra => hcontra.2 hc)]
    refine ⟨?_, ?_⟩
    · dsimp only
      rw [if_pos rfl]
    · intro d hd
      dsimp only
      rw [if_neg hd]
  · intro hinv
    unfold register_new_messages
    dsimp only
    rw [if_pos huse]
    exact registerLoop_sent_le conf scores coins day now msgs 0 _ huse
      (fun d' => hinv d')

/-- C1 witness: at the concrete scenario, a state at quota is rejected, an
admitted day-7 message bumps the day-7 count from 0 to 1, and a registration
call from a state under quota stays under the ceiling. -/
theorem C1_gaen_budget_witness :
    _check_should_send_message_gaen confScenario stFull 7 (7 * 86400) 0 7 0
      = false ∧
    (registerOne confScenario (fun _ => 7) (fun _ => 0) 7 (7 * 86400)
        stScenario msgScenario 0).sent_messages_by_day 7
      = stScenario.sent_messages_by_day 7 + 1 ∧
    ∀ d, ((register_new_messages confScenario (fun _ => 7) (fun _ => 0) 7
        (7 * 86400) [msgScenario] stScenario).sent_messages_by_day d : ℤ)
      ≤ ⌈confScenario.message_budget_gaen * (confScenario.n_people : ℚ)⌉ :=
  ⟨(C1_gaen_budget confScenario stFull 7 (7 * 86400) 0 7 0 (fun _ => 7)
      (fun _ => 0) [msgScenario] msgScenario 0 rfl).1
      (by norm_num [confScenario, stFull]),
   ((C1_gaen_budget confScenario stScenario 7 (7 * 86400) 0 7 0 (fun _ => 7)
      (fun _ => 0) [msgScenario] msgScenario 0 rfl).2.1
      (by norm_num [_check_should_send_message_gaen, confScenario, stScenario,
        scaledRisks, sortDescend, insertDescend, gaenWalk, msgScenario])).1,
   (C1_gaen_budget confScenario stScenario 7 (7 * 86400) 0 7 0 (fun _ => 7)
      (fun _ => 0) [msgScenario] msgScenario 0 rfl).2.2
      (by intro d; norm_num [confScenario, stScenario])⟩

/-! ## C2: burn-in and cooldown rejections -/

/-- C2: the controller rejects whenever
`current_day - intervention_day < burn_in_days`, and rejects whenever the
person's last broadcast lies strictly less than `days_between_messages` days
(`days_between_messages * 86400` seconds) before the current timestamp; in
the spec scenario (burn-in 2, intervention day 5) a day-6 attempt is
rejected (`6 - 5 = 1 < 2`) while the day-7 attempt passes burn-in
(`7 - 5 = 2`) and is admitted. -/
theorem C2_burnin_cooldown (conf : Conf) (st : CityState) (day now : ℤ)
    (human : ℕ) (score : ℤ) (coin : ℚ) :
    ((day - conf.intervention_day < conf.burn_in_days) →
      _check_should_send_message_gaen conf st day now human score coin
        = false) ∧
    ((now - st.latest_update_time human
        < conf.days_between_messages * 86400) →
      _check_should_send_message_gaen conf st day now human score coin
        = false) ∧
    _check_should_send_message_gaen confScenario stScenario 6 (6 * 86400) 0 7 0
      = false ∧
    _check_should_send_message_gaen confScenario stScenario 7 (7 * 86400) 0 7 0
      = true := by
  refine ⟨check_false_of_burnin conf st day now human score coin,
    check_false_of_cooldown conf st day now human score coin, ?_, ?_⟩
  · exact check_false_of_burnin confScenario stScenario 6 (6 * 86400) 0 7 0
      (by norm_num [confScenario])
  · norm_num [_check_should_send_message_gaen, confScenario, stScenario,
      scaledRisks, sortDescend, insertDescend, gaenWalk]

/-- C2 witness: the day-6 rejection and day-7 admission, plus a cooldown
rejection on day 7 when the last broadcast was 100 seconds ago. -/
theorem C2_burnin_cooldown_witness :
    _check_should_send_message_gaen confScenario stScenario 6 (6 * 86400) 0 7 0
      = false ∧
    _check_should_send_message_gaen confScenario stScenario 7 100 0 7 0
      = false ∧
    _check_should_send_message_gaen confScenario stScenario 7 (7 * 86400) 0 7 0
      = true :=
  ⟨(C2_burnin_cooldown confScenario stScenario 6 (6 * 86400) 0 7 0).2.2.1,
   (C2_burnin_cooldown confScenario stScenario 7 100 0 7 0).2.1
     (by norm_num [confScenario, stScenario]),
   (C2_burnin_cooldown confScenario stScenario 7 (7 * 86400) 0 7 0).2.2.2⟩

/-! ## C3: histogram and frame effects of registration -/

/-- C3 counterexample: registering one update message on day 6 — during
burn-in, so the message is rejected (the day's sent count stays 0 and the
sender's last-broadcast time is unchanged) — still increments the run-wide
histogram total: the histogram is mutated on registration, not on successful
send. -/
theorem C3_histogram_counterexample :
    (register_new_messages confScenario (fun _ => 7) (fun _ => 0) 6 (6 * 86400)
        [msgScenario] stScenario).risk_change_histogram_sum
      = stScenario.risk_change_histogram_sum + 1 ∧
    (register_new_messages confScenario (fun _ => 7) (fun _ => 0) 6 (6 * 86400)
        [msgScenario] stScenario).sent_messages_by_day 6
      = stScenario.sent_messages_by_day 6 ∧
    (register_new_messages confScenario (fun _ => 7) (fun _ => 0) 6 (6 * 86400)
        [msgScenario] stScenario).latest_update_time 0
      = stScenario.latest_update_time 0 := by
  refine ⟨?_, ?_, ?_⟩ <;> decide

/-- C3 (amended): the histogram bucket of each distinct updater's
change-score and the running total are incremented once per distinct updater
when the updates are registered, before and regardless of the per-message
send decisions; a rejected message leaves the state entirely unchanged,
while an admitted one bumps the day's sent count, sets the sender's
last-broadcast time to the max of its old value and the current timestamp,
appends the message to the receiver's mailbox, and leaves the histogram
untouched. -/
theorem C3_histogram_frame (conf : Conf) (scores : ℕ → ℤ) (coins : ℕ → ℚ)
    (day now : ℤ) (msgs : List UpdateMessage) (st : CityState)
    (m : UpdateMessage) (i : ℕ) (s : ℤ) (huse : conf.use_gaen = true) :
    (register_new_messages conf scores coins day now msgs
        st).risk_change_histogram_sum
      = st.risk_change_histogram_sum
        + ((msgs.map (fun m => m.sender)).dedup).length ∧
    histCount (register_new_messages conf scores coins day now msgs
        st).risk_change_histogram s
      = histCount st.risk_change_histogram s
        + (msgs.map (fun m => m.sender)).dedup.countP
            (fun hm => decide (scores hm = s)) ∧
    (_check_should_send_message_gaen conf st day now m.sender
        (scores m.sender) (coins i) = false →
      registerOne conf scores coins day now st m i = st) ∧
    (_check_should_send_message_gaen conf st day now m.sender
        (scores m.sender) (coins i) = true →
      (registerOne conf scores coins day now st m i).latest_update_time m.sender
          = max (st.latest_update_time m.sender) now ∧
      (registerOne conf scores coins day now st m i).sent_messages_by_day day
          = st.sent_messages_by_day day + 1 ∧
      (registerOne conf scores coins day now st m i).global_mailbox m.receiver m.uid
          = st.global_mailbox m.receiver m.uid ++ [m] ∧
      (registerOne conf scores coins day now st m i).risk_change_histogram
          = st.risk_change_histogram) := by
  obtain ⟨hsum, hhist⟩ :=
    register_hist_formula conf scores coins day now msgs st huse
  refine ⟨hsum, ?_, ?_, ?_⟩
  · rw [hhist, histCount_foldl]
  · exact fun hc =>
      registerOne_of_reject conf scores coins day now st m i huse hc
  · intro hc
    unfold registerOne
    rw [if_neg (fun hcontra => hcontra.2 hc)]
    refine ⟨?_, ?_, ?_, rfl⟩
    · dsimp only
      rw [if_pos rfl]
    · dsimp only
      rw [if_pos rfl]
    · dsimp only
      rw [if_pos ⟨rfl, rfl⟩]

/-- C3 witness: the amended frame facts at the concrete scenario — the
histogram total grows by one distinct updater on registration, a day-6
(burn-in) message leaves the state unchanged, and an admitted day-7 message
bumps the day count. -/
theorem C3_histogram_frame_witness :
    (register_new_messages confScenario (fun _ => 7) (fun _ => 0) 6 (6 * 86400)
        [msgScenario] stScenario).risk_change_histogram_sum
      = stScenario.risk_change_histogram_sum + 1 ∧
    registerOne confScenario (fun _ => 7) (fun _ => 0) 6 (6 * 86400) stScenario
        msgScenario 0 = stScenario ∧
    (registerOne confScenario (fun _ => 7) (fun _ => 0) 7 (7 * 86400) stScenario
        msgScenario 0).sent_messages_by_day 7
      = stScenario.sent_messages_by_day 7 + 1 :=
  ⟨by
    simpa using (C3_histogram_frame confScenario (fun _ => 7) (fun _ => 0) 6
      (6 * 86400) [msgScenario] stScenario msgScenario 0 7 rfl).1,
   (C3_histogram_frame confScenario (fun _ => 7) (fun _ => 0) 6 (6 * 86400)
      [msgScenario] stScenario msgScenario 0 7 rfl).2.2.1
     (check_false_of_burnin confScenario stScenario 6 (6 * 86400) 0 7 0
       (by norm_num [confScenario])),
   ((C3_histogram_frame confScenario (fun _ => 7) (fun _ => 0) 7 (7 * 86400)
      [msgScenario] stScenario msgScenario 0 7 rfl).2.2.2
     (by norm_num [_check_should_send_message_gaen, confScenario, stScenario,
       scaledRisks, sortDescend, insertDescend, gaenWalk, msgScenario])).2.1⟩

end CovidSim
